import Mathlib

/-!
Verification of the dependency merge core of node-cache-builder
(src/merger.ts), embedded shallowly.

Version specifiers are strings; the semver library calls used by the
source (coerce, gt, lt) are modelled on concrete major.minor.patch
triples.  JavaScript Map objects are modelled as association lists in
insertion order, and plain records as association lists as well.
-/

/-- A concrete semantic version, the result of coercing a specifier. -/
structure Version where
  major : Nat
  minor : Nat
  patch : Nat
deriving DecidableEq, Repr

/-- Model of semver.gt on coerced versions (no prerelease parts):
lexicographic comparison of major, minor, patch. -/
def semverGt (a b : Version) : Bool :=
  decide (b.major < a.major ∨ (a.major = b.major ∧
    (b.minor < a.minor ∨ (a.minor = b.minor ∧ b.patch < a.patch))))

/-- Model of semver.lt: the flipped comparison. -/
def semverLt (a b : Version) : Bool :=
  semverGt b a

/-- Maximal leading run of digit characters, with the remaining suffix. -/
def takeDigits : List Char → List Char × List Char
  | [] => ([], [])
  | c :: rest =>
    if c.isDigit then
      let r := takeDigits rest
      (c :: r.1, r.2)
    else ([], c :: rest)

/-- Numeric value of a digit run. -/
def digitsVal (ds : List Char) : Nat :=
  ds.foldl (fun n c => n * 10 + (c.toNat - 48)) 0

/-- One attempted match of the semver COERCE pattern at a position that
starts with a digit: a run of at most 16 digits for the major part,
then optional dot-separated minor and patch runs, each accepted only
when of length at most 16 (a longer run makes that optional group fail,
leaving the shorter version, exactly as the regex backtracking does). -/
def matchAt (l : List Char) : Option Version :=
  let p1 := takeDigits l
  if p1.1.length = 0 ∨ 16 < p1.1.length then none
  else
    let major := digitsVal p1.1
    match p1.2 with
    | '.' :: rest1 =>
      let p2 := takeDigits rest1
      if p2.1.length = 0 ∨ 16 < p2.1.length then some ⟨major, 0, 0⟩
      else
        let minor := digitsVal p2.1
        match p2.2 with
        | '.' :: rest2 =>
          let p3 := takeDigits rest2
          if p3.1.length = 0 ∨ 16 < p3.1.length then some ⟨major, minor, 0⟩
          else some ⟨major, minor, digitsVal p3.1⟩
        | _ => some ⟨major, minor, 0⟩
    | _ => some ⟨major, 0, 0⟩

/-- Left-to-right scan for the first COERCE match.  A match may only
start at a digit that is not preceded by another digit (the regex
anchor); a run longer than 16 digits admits no match anywhere inside
it and is skipped whole. -/
def coerceScan : List Char → Bool → Option Version
  | [], _ => none
  | c :: rest, prevDigit =>
    if c.isDigit ∧ prevDigit = false then
      match matchAt (c :: rest) with
      | some v => some v
      | none => coerceScan rest true
    else coerceScan rest c.isDigit

/-- JavaScript Number.MAX_SAFE_INTEGER; semver rejects larger components. -/
def maxSafeInteger : Nat := 9007199254740991

/-- Model of cleanVersion from src/merger.ts: semver.coerce, yielding
the coerced concrete version, or none when the specifier is
unparseable (including components beyond MAX_SAFE_INTEGER, which
semver parsing rejects). -/
def cleanVersion (version : String) : Option Version :=
  match coerceScan version.data false with
  | none => none
  | some v =>
    if v.major ≤ maxSafeInteger ∧ v.minor ≤ maxSafeInteger ∧ v.patch ≤ maxSafeInteger
    then some v
    else none

/-- Result of selectHigherVersion: the selected specifier and whether
the first argument was the preferred one. -/
structure SelectResult where
  selected : String
  isV1Higher : Bool
deriving DecidableEq, Repr

/-- Model of selectHigherVersion from src/merger.ts. -/
def selectHigherVersion (v1 v2 : String) : SelectResult :=
  match cleanVersion v1, cleanVersion v2 with
  | none, none => ⟨v1, true⟩
  | none, some _ => ⟨v2, false⟩
  | some _, none => ⟨v1, true⟩
  | some clean1, some clean2 =>
    if semverGt clean1 clean2 then ⟨v1, true⟩
    else if semverGt clean2 clean1 then ⟨v2, false⟩
    else ⟨v1, true⟩

/-- A repository record: its path and the two dependency-class
mappings, as ordered association lists of (name, specifier). -/
structure RepoData where
  path : String
  dependencies : List (String × String)
  devDependencies : List (String × String)
deriving DecidableEq, Repr

/-- One outdated-dependency entry. -/
structure OutdatedDep where
  name : String
  currentVersion : String
  selectedVersion : String
deriving DecidableEq, Repr

/-- Per-repository outdated report. -/
structure OutdatedReport where
  repoPath : String
  outdatedDeps : List OutdatedDep
deriving DecidableEq, Repr

/-- A selection entry of the version maps: the currently selected
specifier and the declaring sources (repo path to original specifier). -/
structure VersionEntry where
  version : String
  sources : List (String × String)
deriving DecidableEq, Repr

/-- The final merge result. -/
structure MergeResult where
  mergedDependencies : List (String × String)
  mergedDevDependencies : List (String × String)
  outdatedReports : List OutdatedReport
deriving DecidableEq, Repr

/-- Map lookup: first entry with the given key (JavaScript Map.get). -/
def mapGet {α : Type} (m : List (String × α)) (k : String) : Option α :=
  match m with
  | [] => none
  | p :: rest => if p.1 = k then some p.2 else mapGet rest k

/-- Map insertion (JavaScript Map.set): overwrite in place when the key
is present, append otherwise. -/
def mapSet {α : Type} (m : List (String × α)) (k : String) (v : α) : List (String × α) :=
  match m with
  | [] => [(k, v)]
  | p :: rest => if p.1 = k then (p.1, v) :: rest else p :: mapSet rest k v

/-- Overwrite the value at an existing key, preserving position; the
map is unchanged when the key is absent. -/
def mapUpdate {α : Type} (m : List (String × α)) (k : String) (v : α) : List (String × α) :=
  match m with
  | [] => []
  | p :: rest => if p.1 = k then (p.1, v) :: rest else p :: mapUpdate rest k v

/-- The version maps built during the merge. -/
abbrev VersionMap := List (String × VersionEntry)

/-- Model of processPackage from src/merger.ts: create a fresh entry on
first encounter, otherwise record the new source and move to the new
specifier exactly when selectHigherVersion does not prefer the
existing one. -/
def processPackage (m : VersionMap) (name version repoPath : String) : VersionMap :=
  match mapGet m name with
  | none => m ++ [(name, ⟨version, [(repoPath, version)]⟩)]
  | some existing =>
    let sources1 := mapSet existing.sources repoPath version
    let r := selectHigherVersion existing.version version
    let newVersion := if r.isV1Higher then existing.version else r.selected
    mapUpdate m name ⟨newVersion, sources1⟩

/-- Processing of one repository: fold its two declaration lists into
the two version maps. -/
def processRepo (maps : VersionMap × VersionMap) (repo : RepoData) : VersionMap × VersionMap :=
  (repo.dependencies.foldl (fun m nv => processPackage m nv.1 nv.2 repo.path) maps.1,
   repo.devDependencies.foldl (fun m nv => processPackage m nv.1 nv.2 repo.path) maps.2)

/-- The main loop of mergeDependencies over all repositories. -/
def processRepos (repos : List RepoData) : VersionMap × VersionMap :=
  repos.foldl processRepo ([], [])

/-- The merged normal mapping: each selection entry contributes its
selected specifier. -/
def mergedOf (m : VersionMap) : List (String × String) :=
  m.map (fun p => (p.1, p.2.version))

/-- JavaScript truthiness of a record lookup: undefined and the empty
string are falsy. -/
def jsTruthy : Option String → Bool
  | none => false
  | some s => if s = "" then false else true

/-- The merged development mapping: a development selection is kept
exactly when the normal-mapping lookup of its name is falsy (the
source tests the looked-up string for truthiness, not presence). -/
def mergedDevOf (dev : VersionMap) (merged : List (String × String)) : List (String × String) :=
  dev.foldl (fun acc p => if jsTruthy (mapGet merged p.1) then acc else acc ++ [(p.1, p.2.version)]) []

/-- One outdated check from buildOutdatedReports: an entry is pushed
when a selection exists, it differs literally from the declared
specifier, both coerce, and the declared version is strictly lower. -/
def checkEntry (sel : Option VersionEntry) (name version : String) : Option OutdatedDep :=
  match sel with
  | none => none
  | some s =>
    if s.version ≠ version then
      match cleanVersion version, cleanVersion s.version with
      | some cleanCurrent, some cleanSelected =>
        if semverLt cleanCurrent cleanSelected then some ⟨name, version, s.version⟩ else none
      | _, _ => none
    else none

/-- The selection consulted for a development-class declaration: the
development map entry when present, else the normal map entry. -/
def getWithFallback (dev dep : VersionMap) (name : String) : Option VersionEntry :=
  match mapGet dev name with
  | some e => some e
  | none => mapGet dep name

/-- Outdated entries of one repository arising from its normal
dependency declarations, in declaration order. -/
def normalOutdated (dep : VersionMap) (repo : RepoData) : List OutdatedDep :=
  repo.dependencies.filterMap (fun nv => checkEntry (mapGet dep nv.1) nv.1 nv.2)

/-- Outdated entries of one repository arising from its development
dependency declarations, in declaration order. -/
def devOutdated (dep dev : VersionMap) (repo : RepoData) : List OutdatedDep :=
  repo.devDependencies.filterMap (fun nv => checkEntry (getWithFallback dev dep nv.1) nv.1 nv.2)

/-- All outdated entries of one repository: normal-class entries first,
then development-class entries, each in declaration order. -/
def outdatedDepsForRepo (dep dev : VersionMap) (repo : RepoData) : List OutdatedDep :=
  normalOutdated dep repo ++ devOutdated dep dev repo

/-- Model of buildOutdatedReports from src/merger.ts: one report per
repository with a nonempty entry list, pushed in input order. -/
def buildOutdatedReports (repos : List RepoData) (dep dev : VersionMap) : List OutdatedReport :=
  repos.foldl (fun reports repo =>
    let ds := outdatedDepsForRepo dep dev repo
    if 0 < ds.length then reports ++ [⟨repo.path, ds⟩] else reports) []

/-- Model of mergeDependencies from src/merger.ts. -/
def mergeDependencies (repos : List RepoData) : MergeResult :=
  let maps := processRepos repos
  let merged := mergedOf maps.1
  let mergedDev := mergedDevOf maps.2 merged
  ⟨merged, mergedDev, buildOutdatedReports repos maps.1 maps.2⟩

/-- Folding selectHigherVersion over a list of specifiers, starting
from a first-seen specifier. -/
def foldSel (v : String) (vs : List String) : String :=
  vs.foldl (fun a b => (selectHigherVersion a b).selected) v

/-- The specifier selected from a list of declarations of one name, in
declaration order: none for the empty list, else the fold of
selectHigherVersion seeded with the first declaration. -/
def selectList : List String → Option String
  | [] => none
  | v :: vs => some (foldSel v vs)

/-- One dependency declaration: package name, declared specifier, and
the declaring repository path. -/
structure DepDecl where
  name : String
  version : String
  repoPath : String
deriving DecidableEq, Repr

/-- The declaration stream of one dependency class, across all
repositories in input order. -/
def classDecls (sel : RepoData → List (String × String)) : List RepoData → List DepDecl
  | [] => []
  | r :: rest => (sel r).map (fun nv => (⟨nv.1, nv.2, r.path⟩ : DepDecl)) ++ classDecls sel rest

/-- Folding processPackage over a declaration stream. -/
def foldProcess (ds : List DepDecl) (m : VersionMap) : VersionMap :=
  ds.foldl (fun acc d => processPackage acc d.name d.version d.repoPath) m

/-- The specifiers declared for one name in a declaration stream, in
order. -/
def versionsOf (name : String) (ds : List DepDecl) : List String :=
  (ds.filter (fun d => d.name == name)).map (fun d => d.version)

/-- The specifiers declared for one name in one dependency class
across all repositories, in input order. -/
def declaredVersions (sel : RepoData → List (String × String)) (name : String) :
    List RepoData → List String
  | [] => []
  | r :: rest =>
    ((sel r).filter (fun nv => nv.1 == name)).map (fun nv => nv.2) ++
      declaredVersions sel name rest

/-- IsLower from the specification: true only when both specifiers are
parseable and the first coerces strictly below the second. -/
def isLower (current selected : String) : Bool :=
  match cleanVersion current, cleanVersion selected with
  | some c, some s => semverLt c s
  | _, _ => false

/-- The outdated condition as the specification states it: a selection
exists, both specifiers are parseable with the declared one strictly
lower, and the declared specifier differs literally from the selected
one. -/
def specCheck (sel : Option VersionEntry) (name spec : String) : Option OutdatedDep :=
  match sel with
  | none => none
  | some e =>
    if isLower spec e.version = true ∧ spec ≠ e.version
    then some ⟨name, spec, e.version⟩
    else none

/-- semver.gt as a fallible operation: comparing anything that is not a
valid parsed version is an error, as the semver library throws there. -/
def semverGtE : Option Version → Option Version → Except String Bool
  | some a, some b => .ok (semverGt a b)
  | _, _ => .error "Invalid Version"

/-- semver.lt as a fallible operation. -/
def semverLtE : Option Version → Option Version → Except String Bool
  | some a, some b => .ok (semverLt a b)
  | _, _ => .error "Invalid Version"

/-- selectHigherVersion with the fallible comparisons made explicit:
the unparseable guards run first, so the comparison is only reached
with two parsed versions. -/
def selectHigherVersionE (v1 v2 : String) : Except String SelectResult :=
  match cleanVersion v1, cleanVersion v2 with
  | none, none => .ok ⟨v1, true⟩
  | none, some _ => .ok ⟨v2, false⟩
  | some _, none => .ok ⟨v1, true⟩
  | some clean1, some clean2 =>
    match semverGtE (some clean1) (some clean2) with
    | .error e => .error e
    | .ok g1 =>
      if g1 then .ok ⟨v1, true⟩
      else
        match semverGtE (some clean2) (some clean1) with
        | .error e => .error e
        | .ok g2 => if g2 then .ok ⟨v2, false⟩ else .ok ⟨v1, true⟩

/-- processPackage with fallible comparison. -/
def processPackageE (m : VersionMap) (name version repoPath : String) :
    Except String VersionMap :=
  match mapGet m name with
  | none => .ok (m ++ [(name, ⟨version, [(repoPath, version)]⟩)])
  | some existing =>
    let sources1 := mapSet existing.sources repoPath version
    match selectHigherVersionE existing.version version with
    | .error e => .error e
    | .ok r =>
      let newVersion := if r.isV1Higher then existing.version else r.selected
      .ok (mapUpdate m name ⟨newVersion, sources1⟩)

/-- A left fold that stops at the first error. -/
def foldE {α β : Type} (f : β → α → Except String β) (init : β) : List α → Except String β
  | [] => .ok init
  | a :: rest =>
    match f init a with
    | .error e => .error e
    | .ok b => foldE f b rest

/-- processRepo with fallible comparison. -/
def processRepoE (maps : VersionMap × VersionMap) (repo : RepoData) :
    Except String (VersionMap × VersionMap) :=
  match foldE (fun m nv => processPackageE m nv.1 nv.2 repo.path) maps.1 repo.dependencies with
  | .error e => .error e
  | .ok d =>
    match foldE (fun m nv => processPackageE m nv.1 nv.2 repo.path) maps.2 repo.devDependencies with
    | .error e => .error e
    | .ok dd => .ok (d, dd)

/-- The main merge loop with fallible comparison. -/
def processReposE (repos : List RepoData) : Except String (VersionMap × VersionMap) :=
  foldE processRepoE ([], []) repos

/-- checkEntry with fallible comparison: the parseability guards run
first, so semver.lt is only reached with two parsed versions. -/
def checkEntryE (sel : Option VersionEntry) (name version : String) :
    Except String (Option OutdatedDep) :=
  match sel with
  | none => .ok none
  | some s =>
    if s.version ≠ version then
      match cleanVersion version, cleanVersion s.version with
      | some cleanCurrent, some cleanSelected =>
        match semverLtE (some cleanCurrent) (some cleanSelected) with
        | .error e => .error e
        | .ok b => .ok (if b then some ⟨name, version, s.version⟩ else none)
      | _, _ => .ok none
    else .ok none

/-- A filterMap that stops at the first error. -/
def filterMapE {α β : Type} (f : α → Except String (Option β)) : List α → Except String (List β)
  | [] => .ok []
  | a :: rest =>
    match f a with
    | .error e => .error e
    | .ok o =>
      match filterMapE f rest with
      | .error e => .error e
      | .ok l => .ok (o.toList ++ l)

/-- Outdated entries of one repository with fallible comparison. -/
def outdatedDepsForRepoE (dep dev : VersionMap) (repo : RepoData) :
    Except String (List OutdatedDep) :=
  match filterMapE (fun nv => checkEntryE (mapGet dep nv.1) nv.1 nv.2) repo.dependencies with
  | .error e => .error e
  | .ok ds =>
    match filterMapE (fun nv => checkEntryE (getWithFallback dev dep nv.1) nv.1 nv.2)
        repo.devDependencies with
    | .error e => .error e
    | .ok dds => .ok (ds ++ dds)

/-- buildOutdatedReports with fallible comparison. -/
def buildOutdatedReportsE (repos : List RepoData) (dep dev : VersionMap) :
    Except String (List OutdatedReport) :=
  foldE (fun reports repo =>
    match outdatedDepsForRepoE dep dev repo with
    | .error e => .error e
    | .ok ds => .ok (if 0 < ds.length then reports ++ [⟨repo.path, ds⟩] else reports)) [] repos

/-- mergeDependencies with every fallible library comparison made
explicit: an error anywhere aborts the merge. -/
def mergeDependenciesE (repos : List RepoData) : Except String MergeResult :=
  match processReposE repos with
  | .error e => .error e
  | .ok maps =>
    let merged := mergedOf maps.1
    let mergedDev := mergedDevOf maps.2 merged
    match buildOutdatedReportsE repos maps.1 maps.2 with
    | .error e => .error e
    | .ok reports => .ok ⟨merged, mergedDev, reports⟩

/-- Specification reading of step 6 of the merge algorithm: one report
per repository in input order, kept exactly when it has entries. -/
def outdatedReportsSpec (repos : List RepoData) (dep dev : VersionMap) : List OutdatedReport :=
  (repos.map (fun r => OutdatedReport.mk r.path (outdatedDepsForRepo dep dev r))).filter
    (fun rep => !rep.outdatedDeps.isEmpty)

/-- Scenario 1 of the specification: three repositories declaring
lodash as a normal dependency. -/
def repoA1 : RepoData := ⟨"repoA", [("lodash", "^4.17.0")], []⟩

def repoB1 : RepoData := ⟨"repoB", [("lodash", "^4.17.21")], []⟩

def repoC1 : RepoData := ⟨"repoC", [("lodash", "^4.16.0")], []⟩

def scenario1 : List RepoData := [repoA1, repoB1, repoC1]

/-- Scenario 2 of the specification: left-pad as a development
dependency of repoA and a higher normal dependency of repoB. -/
def repoA5 : RepoData := ⟨"repoA", [], [("left-pad", "^1.0.0")]⟩

def repoB5 : RepoData := ⟨"repoB", [("left-pad", "^1.1.0")], []⟩

def scenario5 : List RepoData := [repoA5, repoB5]

/-- A repository whose normal dependency carries the empty specifier
while the same name is also a development dependency. -/
def repoBug : RepoData := ⟨"repoR", [("foo", "")], [("foo", "1.0.0")]⟩

/-- Three repositories whose development selection for pkg survives in
no merged mapping. -/
def repoA10 : RepoData := ⟨"rA", [], [("pkg", "^1.0.0")]⟩

def repoB10 : RepoData := ⟨"rB", [], [("pkg", "^2.0.0")]⟩

def repoC10 : RepoData := ⟨"rC", [("pkg", "^3.0.0")], []⟩

def scenario10 : List RepoData := [repoA10, repoB10, repoC10]

/-! ### Order lemmas for the version comparison -/

theorem semverGt_irrefl (a : Version) : semverGt a a = false := by
  simp [semverGt]

theorem semverGt_asymm {a b : Version} (h : semverGt a b = true) : semverGt b a = false := by
  simp only [semverGt, decide_eq_true_eq] at h
  simp only [semverGt, decide_eq_false_iff_not]
  omega

theorem semverGt_total {a b : Version} (h1 : semverGt a b = false) (h2 : semverGt b a = false) :
    a = b := by
  simp only [semverGt, decide_eq_false_iff_not] at h1 h2
  cases a
  cases b
  simp only [Version.mk.injEq]
  simp only at h1 h2
  omega

theorem semverGt_trans {a b c : Version} (h1 : semverGt a b = true) (h2 : semverGt b c = true) :
    semverGt a c = true := by
  simp only [semverGt, decide_eq_true_eq] at h1 h2 ⊢
  omega

theorem semverGe_trans {a b c : Version} (h1 : a = b ∨ semverGt a b = true)
    (h2 : b = c ∨ semverGt b c = true) : a = c ∨ semverGt a c = true := by
  rcases h1 with h1 | h1
  · rw [h1]; exact h2
  · rcases h2 with h2 | h2
    · rw [h2] at h1; exact Or.inr h1
    · exact Or.inr (semverGt_trans h1 h2)

/-! ### Lemmas about selectHigherVersion -/

theorem selectHigher_selected_mem (a b : String) :
    (selectHigherVersion a b).selected = a ∨ (selectHigherVersion a b).selected = b := by
  cases ha : cleanVersion a <;> cases hb : cleanVersion b <;>
      simp [selectHigherVersion, ha, hb] <;>
    · split
      · simp
      · split <;> simp

theorem selectHigher_selected_eq (a b : String) :
    (selectHigherVersion a b).selected =
      if (selectHigherVersion a b).isV1Higher then a else b := by
  cases ha : cleanVersion a <;> cases hb : cleanVersion b <;>
      simp [selectHigherVersion, ha, hb] <;>
    · split
      · simp
      · split <;> simp

theorem selectHigher_ge_left {a : String} (b : String) {ca : Version}
    (ha : cleanVersion a = some ca) :
    ∃ c, cleanVersion (selectHigherVersion a b).selected = some c ∧
      (c = ca ∨ semverGt c ca = true) := by
  cases hb : cleanVersion b with
  | none => exact ⟨ca, by simp [selectHigherVersion, ha, hb], Or.inl rfl⟩
  | some cb =>
    by_cases h1 : semverGt ca cb = true
    · exact ⟨ca, by simp [selectHigherVersion, ha, hb, h1], Or.inl rfl⟩
    · by_cases h2 : semverGt cb ca = true
      · refine ⟨cb, ?_, Or.inr h2⟩
        simp [selectHigherVersion, ha, hb, h1, h2]
      · exact ⟨ca, by simp [selectHigherVersion, ha, hb, h1, h2], Or.inl rfl⟩

theorem selectHigher_ge_right (a : String) {b : String} {cb : Version}
    (hb : cleanVersion b = some cb) :
    ∃ c, cleanVersion (selectHigherVersion a b).selected = some c ∧
      (c = cb ∨ semverGt c cb = true) := by
  cases ha : cleanVersion a with
  | none => exact ⟨cb, by simp [selectHigherVersion, ha, hb], Or.inl rfl⟩
  | some ca =>
    by_cases h1 : semverGt ca cb = true
    · exact ⟨ca, by simp [selectHigherVersion, ha, hb, h1], Or.inr h1⟩
    · by_cases h2 : semverGt cb ca = true
      · refine ⟨cb, ?_, Or.inl rfl⟩
        simp [selectHigherVersion, ha, hb, h1, h2]
      · have heq : ca = cb := by
          apply semverGt_total
          · exact Bool.not_eq_true _ ▸ eq_false_of_ne_true h1
          · exact Bool.not_eq_true _ ▸ eq_false_of_ne_true h2
        exact ⟨ca, by simp [selectHigherVersion, ha, hb, h1, h2], Or.inl heq⟩

/-! ### Lemmas about the per-name selection fold -/

theorem foldSel_cons (v a : String) (vs : List String) :
    foldSel v (a :: vs) = foldSel (selectHigherVersion v a).selected vs := rfl

theorem foldSel_mem (v : String) (vs : List String) : foldSel v vs ∈ v :: vs := by
  induction vs generalizing v with
  | nil => simp [foldSel]
  | cons a rest ih =>
    rw [foldSel_cons]
    rcases List.mem_cons.mp (ih (selectHigherVersion v a).selected) with h1 | h1
    · rw [h1]
      rcases selectHigher_selected_mem v a with h2 | h2 <;> simp [h2]
    · simp [List.mem_cons.mpr (Or.inr (List.mem_cons.mpr (Or.inr h1)))]

theorem foldSel_ge_seed (vs : List String) :
    ∀ (cur : String) (ccur : Version), cleanVersion cur = some ccur →
      ∃ c, cleanVersion (foldSel cur vs) = some c ∧ (c = ccur ∨ semverGt c ccur = true) := by
  induction vs with
  | nil =>
    intro cur ccur hcur
    exact ⟨ccur, by simpa [foldSel] using hcur, Or.inl rfl⟩
  | cons a rest ih =>
    intro cur ccur hcur
    obtain ⟨c1, hc1, hge1⟩ := selectHigher_ge_left a hcur
    obtain ⟨c2, hc2, hge2⟩ := ih (selectHigherVersion cur a).selected c1 hc1
    exact ⟨c2, by rwa [foldSel_cons], semverGe_trans hge2 hge1⟩

theorem foldSel_ge (v : String) (vs : List String) {w : String} (hw : w ∈ v :: vs)
    {cw : Version} (hcw : cleanVersion w = some cw) :
    ∃ c, cleanVersion (foldSel v vs) = some c ∧ (c = cw ∨ semverGt c cw = true) := by
  rcases List.mem_cons.mp hw with h | h
  · subst h
    exact foldSel_ge_seed vs w cw hcw
  · clear hw
    induction vs generalizing v with
    | nil => simp at h
    | cons a rest ih =>
      rw [foldSel_cons]
      rcases List.mem_cons.mp h with h2 | h2
      · subst h2
        obtain ⟨c1, hc1, hge1⟩ := selectHigher_ge_right v hcw
        obtain ⟨c2, hc2, hge2⟩ := foldSel_ge_seed rest (selectHigherVersion v w).selected c1 hc1
        exact ⟨c2, hc2, semverGe_trans hge2 hge1⟩
      · exact ih (selectHigherVersion v a).selected h2

theorem selectList_mem {vs : List String} {v : String} (h : selectList vs = some v) : v ∈ vs := by
  cases vs with
  | nil => simp [selectList] at h
  | cons a rest =>
    simp only [selectList, Option.some.injEq] at h
    rw [← h]
    exact foldSel_mem a rest

theorem selectList_ge {vs : List String} {w : String} (hw : w ∈ vs) {cw : Version}
    (hcw : cleanVersion w = some cw) :
    ∃ v c, selectList vs = some v ∧ cleanVersion v = some c ∧ (c = cw ∨ semverGt c cw = true) := by
  cases vs with
  | nil => simp at hw
  | cons a rest =>
    obtain ⟨c, hc, hge⟩ := foldSel_ge a rest hw hcw
    exact ⟨foldSel a rest, c, rfl, hc, hge⟩

/-! ### Lemmas about the association-list maps -/

theorem mapGet_append_of_some {α : Type} {m1 : List (String × α)} {k : String} {v : α}
    (h : mapGet m1 k = some v) (m2 : List (String × α)) : mapGet (m1 ++ m2) k = some v := by
  induction m1 with
  | nil => simp [mapGet] at h
  | cons p rest ih =>
    by_cases hp : p.1 = k
    · simp_all [mapGet]
    · simp only [mapGet, hp, if_false] at h
      simp only [List.cons_append, mapGet, hp, if_false]
      exact ih h

theorem mapGet_append_of_none {α : Type} {m1 : List (String × α)} {k : String}
    (h : mapGet m1 k = none) (m2 : List (String × α)) : mapGet (m1 ++ m2) k = mapGet m2 k := by
  induction m1 with
  | nil => rfl
  | cons p rest ih =>
    by_cases hp : p.1 = k
    · simp [mapGet, hp] at h
    · simp only [mapGet, hp, if_false] at h
      simp only [List.cons_append, mapGet, hp, if_false]
      exact ih h

theorem mapGet_update_other {α : Type} (m : List (String × α)) {k k2 : String} (h : k ≠ k2)
    (v : α) : mapGet (mapUpdate m k v) k2 = mapGet m k2 := by
  induction m with
  | nil => rfl
  | cons p rest ih =>
    by_cases hp : p.1 = k
    · simp [mapUpdate, mapGet, hp, h]
    · by_cases hp2 : p.1 = k2 <;> simp [mapUpdate, mapGet, hp, hp2, Ne.symm h, ih]

theorem mapGet_update_self {α : Type} {m : List (String × α)} {k : String}
    (h : (mapGet m k).isSome) (v : α) : mapGet (mapUpdate m k v) k = some v := by
  induction m with
  | nil => simp [mapGet] at h
  | cons p rest ih =>
    by_cases hp : p.1 = k
    · simp [mapUpdate, mapGet, hp]
    · simp only [mapGet, hp, if_false] at h
      simp only [mapUpdate, hp, if_false, mapGet]
      exact ih h

/-! ### Lemmas about processPackage and the merge folds -/

theorem processPackage_newVersion (a b : String) :
    (if (selectHigherVersion a b).isV1Higher then a else (selectHigherVersion a b).selected) =
      (selectHigherVersion a b).selected := by
  by_cases h : (selectHigherVersion a b).isV1Higher = true
  · rw [if_pos h, selectHigher_selected_eq a b, h, if_pos rfl]
  · rw [if_neg h]

theorem mapGet_processPackage_other {m : VersionMap} {n k : String} (h : n ≠ k)
    (v p : String) : mapGet (processPackage m n v p) k = mapGet m k := by
  unfold processPackage
  cases hg : mapGet m n with
  | none =>
    cases hk : mapGet m k with
    | none =>
      rw [mapGet_append_of_none hk]
      simp [mapGet, h]
    | some v2 => exact mapGet_append_of_some hk _
  | some e => exact mapGet_update_other m h _

theorem mapGet_processPackage_self (m : VersionMap) (n v p : String) :
    ∃ e : VersionEntry, mapGet (processPackage m n v p) n = some e ∧
      e.version = (match mapGet m n with
        | none => v
        | some ex => (selectHigherVersion ex.version v).selected) := by
  cases hg : mapGet m n with
  | none =>
    refine ⟨⟨v, [(p, v)]⟩, ?_, rfl⟩
    unfold processPackage
    rw [hg, mapGet_append_of_none hg]
    simp [mapGet]
  | some ex =>
    refine ⟨⟨(selectHigherVersion ex.version v).selected, mapSet ex.sources p v⟩, ?_, rfl⟩
    unfold processPackage
    rw [hg]
    simp only [processPackage_newVersion]
    exact mapGet_update_self (by simp [hg]) _

theorem foldProcess_cons (d : DepDecl) (ds : List DepDecl) (m : VersionMap) :
    foldProcess (d :: ds) m = foldProcess ds (processPackage m d.name d.version d.repoPath) := rfl

theorem versionsOf_cons_eq {d : DepDecl} {name : String} (h : d.name = name)
    (ds : List DepDecl) : versionsOf name (d :: ds) = d.version :: versionsOf name ds := by
  simp [versionsOf, List.filter_cons, h]

theorem versionsOf_cons_ne {d : DepDecl} {name : String} (h : ¬d.name = name)
    (ds : List DepDecl) : versionsOf name (d :: ds) = versionsOf name ds := by
  simp [versionsOf, List.filter_cons, h]

theorem mapGet_foldProcess (ds : List DepDecl) (m : VersionMap) (name : String) :
    (mapGet (foldProcess ds m) name).map VersionEntry.version =
      selectList (((mapGet m name).map VersionEntry.version).toList ++ versionsOf name ds) := by
  induction ds generalizing m with
  | nil =>
    cases h : mapGet m name <;> simp [foldProcess, versionsOf, selectList, foldSel, h]
  | cons d rest ih =>
    rw [foldProcess_cons, ih]
    by_cases h : d.name = name
    · subst h
      rw [versionsOf_cons_eq rfl]
      obtain ⟨e, he, hev⟩ := mapGet_processPackage_self m d.name d.version d.repoPath
      rw [he]
      cases hg : mapGet m d.name with
      | none =>
        rw [hg] at hev
        simp only at hev
        simp [hev, selectList]
      | some ex =>
        rw [hg] at hev
        simp only at hev
        show some (foldSel e.version (versionsOf d.name rest)) =
          some (foldSel ex.version (d.version :: versionsOf d.name rest))
        rw [foldSel_cons, ← hev]
    · rw [versionsOf_cons_ne h, mapGet_processPackage_other h]

theorem processRepos_foldl (repos : List RepoData) :
    ∀ m1 m2 : VersionMap, repos.foldl processRepo (m1, m2) =
      (foldProcess (classDecls RepoData.dependencies repos) m1,
       foldProcess (classDecls RepoData.devDependencies repos) m2) := by
  induction repos with
  | nil => intro m1 m2; rfl
  | cons r rest ih =>
    intro m1 m2
    rw [List.foldl_cons]
    have hrepo : processRepo (m1, m2) r =
        (foldProcess ((classDecls RepoData.dependencies [r])) m1,
         foldProcess ((classDecls RepoData.devDependencies [r])) m2) := by
      simp only [processRepo, classDecls, foldProcess, List.append_nil, List.foldl_map]
    rw [hrepo, ih]
    simp only [classDecls, List.append_nil, foldProcess, List.foldl_append]

theorem processRepos_eq (repos : List RepoData) :
    processRepos repos = (foldProcess (classDecls RepoData.dependencies repos) [],
                          foldProcess (classDecls RepoData.devDependencies repos) []) :=
  processRepos_foldl repos [] []

theorem versionsOf_classDecls (sel : RepoData → List (String × String)) (name : String)
    (repos : List RepoData) :
    versionsOf name (classDecls sel repos) = declaredVersions sel name repos := by
  induction repos with
  | nil => rfl
  | cons r rest ih =>
    simp only [classDecls, declaredVersions, versionsOf, List.filter_append, List.map_append]
    rw [← ih]
    simp only [versionsOf, List.filter_map, List.map_map]
    congr 1

theorem mapGet_processRepos_fst (repos : List RepoData) (name : String) :
    (mapGet (processRepos repos).1 name).map VersionEntry.version =
      selectList (declaredVersions RepoData.dependencies name repos) := by
  rw [processRepos_eq]
  have h := mapGet_foldProcess (classDecls RepoData.dependencies repos) [] name
  simpa [mapGet, versionsOf_classDecls] using h

theorem mapGet_processRepos_snd (repos : List RepoData) (name : String) :
    (mapGet (processRepos repos).2 name).map VersionEntry.version =
      selectList (declaredVersions RepoData.devDependencies name repos) := by
  rw [processRepos_eq]
  have h := mapGet_foldProcess (classDecls RepoData.devDependencies repos) [] name
  simpa [mapGet, versionsOf_classDecls] using h

/-! ### Lemmas about the merged output mappings -/

theorem mapGet_mergedOf (m : VersionMap) (k : String) :
    mapGet (mergedOf m) k = (mapGet m k).map VersionEntry.version := by
  induction m with
  | nil => rfl
  | cons p rest ih =>
    by_cases h : p.1 = k <;> simp [mergedOf, mapGet, h] <;> exact ih

theorem mergedDevOf_eq (dev : VersionMap) (merged : List (String × String)) :
    mergedDevOf dev merged =
      (dev.filter (fun p => !jsTruthy (mapGet merged p.1))).map (fun p => (p.1, p.2.version)) := by
  have key : ∀ (l : List (String × VersionEntry)) (acc : List (String × String)),
      l.foldl (fun acc p =>
          if jsTruthy (mapGet merged p.1) then acc else acc ++ [(p.1, p.2.version)]) acc =
        acc ++ (l.filter (fun p => !jsTruthy (mapGet merged p.1))).map (fun p => (p.1, p.2.version)) := by
    intro l
    induction l with
    | nil => intro acc; simp
    | cons p rest ih =>
      intro acc
      rw [List.foldl_cons]
      by_cases h : jsTruthy (mapGet merged p.1) = true
      · rw [if_pos h, ih, List.filter_cons]
        simp [h]
      · rw [if_neg h, ih, List.filter_cons]
        simp [h]
  exact key dev []

theorem mapGet_filter_map_key {α β : Type} (l : List (String × α)) (q : String → Bool)
    (f : α → β) (k : String) :
    mapGet ((l.filter (fun p => q p.1)).map (fun p => (p.1, f p.2))) k =
      if q k then (mapGet l k).map f else none := by
  induction l with
  | nil => simp [mapGet]
  | cons p rest ih =>
    by_cases hq : q p.1 = true <;> by_cases hk : p.1 = k
    · subst hk
      simp [List.filter_cons, hq, mapGet]
    · simp [List.filter_cons, hq, mapGet, hk, ih]
    · subst hk
      simp [List.filter_cons, hq, mapGet, ih]
    · simp [List.filter_cons, hq, mapGet, hk, ih]

/-! ### Lemmas about the outdated checks -/

theorem checkEntry_eq_specCheck (sel : Option VersionEntry) (n v : String) :
    checkEntry sel n v = specCheck sel n v := by
  cases sel with
  | none => rfl
  | some s =>
    simp only [checkEntry, specCheck]
    by_cases h1 : s.version = v
    · simp [isLower, h1]
    · rw [if_pos h1]
      have hvs : v ≠ s.version := fun h => h1 h.symm
      cases hc : cleanVersion v with
      | none => cases hs : cleanVersion s.version <;> simp [isLower, hc, hs]
      | some cc =>
        cases hs : cleanVersion s.version with
        | none => simp [isLower, hc, hs]
        | some cs =>
          by_cases hlt : semverLt cc cs = true
          · simp [isLower, hc, hs, hlt, hvs]
          · simp [isLower, hc, hs, hlt]

theorem checkEntry_eq_some {sel : Option VersionEntry} {n v : String} {e : OutdatedDep}
    (h : checkEntry sel n v = some e) :
    ∃ s, sel = some s ∧ e = ⟨n, v, s.version⟩ ∧ s.version ≠ v ∧
      ∃ cc cs, cleanVersion v = some cc ∧ cleanVersion s.version = some cs ∧
        semverLt cc cs = true := by
  rw [checkEntry_eq_specCheck] at h
  cases sel with
  | none => simp [specCheck] at h
  | some s =>
    simp only [specCheck] at h
    by_cases hcond : isLower v s.version = true ∧ v ≠ s.version
    · rw [if_pos hcond] at h
      obtain ⟨hl, hne⟩ := hcond
      unfold isLower at hl
      split at hl
      · rename_i cc cs hc hs
        exact ⟨s, rfl, by simpa using h.symm, Ne.symm hne, cc, cs, hc, hs, hl⟩
      · exact absurd hl (by simp)
    · rw [if_neg hcond] at h
      exact absurd h (by simp)

theorem buildOutdatedReports_foldl (repos : List RepoData) (dep dev : VersionMap) :
    ∀ acc : List OutdatedReport,
      repos.foldl (fun reports repo =>
        let ds := outdatedDepsForRepo dep dev repo
        if 0 < ds.length then reports ++ [⟨repo.path, ds⟩] else reports) acc =
      acc ++ outdatedReportsSpec repos dep dev := by
  induction repos with
  | nil => intro acc; simp [outdatedReportsSpec]
  | cons r rest ih =>
    intro acc
    rw [List.foldl_cons]
    simp only
    by_cases h : 0 < (outdatedDepsForRepo dep dev r).length
    · rw [if_pos h, ih]
      have hne : ((⟨r.path, outdatedDepsForRepo dep dev r⟩ : OutdatedReport).outdatedDeps.isEmpty) = false := by
        cases hds : outdatedDepsForRepo dep dev r with
        | nil => rw [hds] at h; simp at h
        | cons a l => simp [hds]
      simp only [outdatedReportsSpec, List.map_cons, List.filter_cons, hne, Bool.not_false,
        List.append_assoc, List.singleton_append]
      rfl
    · rw [if_neg h, ih]
      have hemp : ((⟨r.path, outdatedDepsForRepo dep dev r⟩ : OutdatedReport).outdatedDeps.isEmpty) = true := by
        cases hds : outdatedDepsForRepo dep dev r with
        | nil => simp [hds]
        | cons a l => rw [hds] at h; simp at h
      simp only [outdatedReportsSpec, List.map_cons, List.filter_cons, hemp, Bool.not_true]
      rfl

theorem buildOutdatedReports_eq (repos : List RepoData) (dep dev : VersionMap) :
    buildOutdatedReports repos dep dev = outdatedReportsSpec repos dep dev := by
  have h := buildOutdatedReports_foldl repos dep dev []
  simpa [buildOutdatedReports] using h

theorem mem_outdatedReportsSpec_nonempty {repos : List RepoData} {dep dev : VersionMap}
    {rep : OutdatedReport} (h : rep ∈ outdatedReportsSpec repos dep dev) :
    rep.outdatedDeps ≠ [] := by
  unfold outdatedReportsSpec at h
  have h2 := List.of_mem_filter h
  intro hnil
  rw [hnil] at h2
  simp at h2

theorem outdated_name_sublist (decls : List (String × String)) (f : String → Option VersionEntry) :
    List.Sublist ((decls.filterMap (fun nv => checkEntry (f nv.1) nv.1 nv.2)).map
      (fun e => (e.name, e.currentVersion))) decls := by
  induction decls with
  | nil => simp
  | cons nv rest ih =>
    rw [List.filterMap_cons]
    cases h : checkEntry (f nv.1) nv.1 nv.2 with
    | none => exact ih.cons nv
    | some e =>
      obtain ⟨s, _, he, _⟩ := checkEntry_eq_some h
      rw [List.map_cons, he]
      exact List.Sublist.cons₂ nv ih

/-! ### The fallible layer is everywhere successful -/

theorem selectHigherVersionE_ok (v1 v2 : String) :
    selectHigherVersionE v1 v2 = Except.ok (selectHigherVersion v1 v2) := by
  cases h1 : cleanVersion v1 <;> cases h2 : cleanVersion v2 <;>
      simp only [selectHigherVersionE, selectHigherVersion, h1, h2, semverGtE]
  split
  · rfl
  · split <;> rfl

theorem processPackageE_ok (m : VersionMap) (name version repoPath : String) :
    processPackageE m name version repoPath = Except.ok (processPackage m name version repoPath) := by
  unfold processPackageE processPackage
  cases h : mapGet m name with
  | none => rfl
  | some existing =>
    simp only [selectHigherVersionE_ok]

theorem foldE_ok {α β : Type} {f : β → α → Except String β} {g : β → α → β}
    (hf : ∀ b a, f b a = Except.ok (g b a)) (l : List α) (init : β) :
    foldE f init l = Except.ok (l.foldl g init) := by
  induction l generalizing init with
  | nil => rfl
  | cons a rest ih => simp only [foldE, hf, ih, List.foldl_cons]

theorem processRepoE_ok (maps : VersionMap × VersionMap) (repo : RepoData) :
    processRepoE maps repo = Except.ok (processRepo maps repo) := by
  simp only [processRepoE, processRepo,
    @foldE_ok (String × String) VersionMap
      (fun m nv => processPackageE m nv.1 nv.2 repo.path)
      (fun m nv => processPackage m nv.1 nv.2 repo.path)
      (fun m nv => processPackageE_ok m nv.1 nv.2 repo.path)]

theorem processReposE_ok (repos : List RepoData) :
    processReposE repos = Except.ok (processRepos repos) := by
  unfold processReposE processRepos
  exact foldE_ok processRepoE_ok repos ([], [])

theorem checkEntryE_ok (sel : Option VersionEntry) (name version : String) :
    checkEntryE sel name version = Except.ok (checkEntry sel name version) := by
  cases sel with
  | none => rfl
  | some s =>
    simp only [checkEntryE, checkEntry]
    by_cases h1 : s.version ≠ version
    · rw [if_pos h1, if_pos h1]
      cases hc : cleanVersion version <;> cases hs : cleanVersion s.version <;>
        simp [semverLtE]
    · rw [if_neg h1, if_neg h1]

theorem filterMapE_ok {α β : Type} {f : α → Except String (Option β)} {g : α → Option β}
    (hf : ∀ a, f a = Except.ok (g a)) (l : List α) :
    filterMapE f l = Except.ok (l.filterMap g) := by
  induction l with
  | nil => rfl
  | cons a rest ih =>
    simp only [filterMapE, hf, ih, List.filterMap_cons]
    cases g a <;> simp

theorem outdatedDepsForRepoE_ok (dep dev : VersionMap) (repo : RepoData) :
    outdatedDepsForRepoE dep dev repo = Except.ok (outdatedDepsForRepo dep dev repo) := by
  simp only [outdatedDepsForRepoE, outdatedDepsForRepo, normalOutdated, devOutdated,
    @filterMapE_ok (String × String) OutdatedDep
      (fun nv => checkEntryE (mapGet dep nv.1) nv.1 nv.2)
      (fun nv => checkEntry (mapGet dep nv.1) nv.1 nv.2)
      (fun nv => checkEntryE_ok (mapGet dep nv.1) nv.1 nv.2),
    @filterMapE_ok (String × String) OutdatedDep
      (fun nv => checkEntryE (getWithFallback dev dep nv.1) nv.1 nv.2)
      (fun nv => checkEntry (getWithFallback dev dep nv.1) nv.1 nv.2)
      (fun nv => checkEntryE_ok (getWithFallback dev dep nv.1) nv.1 nv.2)]

theorem buildOutdatedReportsE_ok (repos : List RepoData) (dep dev : VersionMap) :
    buildOutdatedReportsE repos dep dev = Except.ok (buildOutdatedReports repos dep dev) := by
  unfold buildOutdatedReportsE buildOutdatedReports
  refine foldE_ok ?_ repos []
  intro reports repo
  rw [outdatedDepsForRepoE_ok]

theorem mergeDependenciesE_ok (repos : List RepoData) :
    mergeDependenciesE repos = Except.ok (mergeDependencies repos) := by
  simp only [mergeDependenciesE, mergeDependencies, processReposE_ok, buildOutdatedReportsE_ok]

/-! ### Glue lemmas and provenance helpers -/

theorem mergedDependencies_eq (repos : List RepoData) :
    (mergeDependencies repos).mergedDependencies = mergedOf (processRepos repos).1 := rfl

theorem mergedDevDependencies_eq (repos : List RepoData) :
    (mergeDependencies repos).mergedDevDependencies =
      mergedDevOf (processRepos repos).2 (mergedOf (processRepos repos).1) := rfl

theorem outdatedReports_eq (repos : List RepoData) :
    (mergeDependencies repos).outdatedReports =
      buildOutdatedReports repos (processRepos repos).1 (processRepos repos).2 := rfl

theorem mem_declaredVersions {sel : RepoData → List (String × String)} {name v : String}
    {repos : List RepoData} (h : v ∈ declaredVersions sel name repos) :
    ∃ r, r ∈ repos ∧ (name, v) ∈ sel r := by
  induction repos with
  | nil => simp [declaredVersions] at h
  | cons r rest ih =>
    rw [declaredVersions] at h
    rcases List.mem_append.mp h with h | h
    · obtain ⟨nv, hmem, hv⟩ := List.mem_map.mp h
      have hf := List.mem_filter.mp hmem
      have hn : nv.1 = name := by simpa using hf.2
      refine ⟨r, List.mem_cons_self _ _, ?_⟩
      have : nv = (name, v) := by
        cases nv
        simp only [Prod.mk.injEq]
        exact ⟨hn, hv⟩
      rw [← this]
      exact hf.1
    · obtain ⟨r2, hr2, hmem⟩ := ih h
      exact ⟨r2, List.mem_cons_of_mem _ hr2, hmem⟩

theorem declaredVersions_mem {sel : RepoData → List (String × String)} {name v : String}
    {repos : List RepoData} {r : RepoData} (hr : r ∈ repos) (h : (name, v) ∈ sel r) :
    v ∈ declaredVersions sel name repos := by
  induction repos with
  | nil => simp at hr
  | cons a rest ih =>
    rw [declaredVersions]
    rcases List.mem_cons.mp hr with h2 | h2
    · subst h2
      refine List.mem_append.mpr (Or.inl ?_)
      exact List.mem_map.mpr ⟨(name, v), List.mem_filter.mpr ⟨h, by simp⟩, rfl⟩
    · exact List.mem_append.mpr (Or.inr (ih h2))

theorem devSelection_exists {repos : List RepoData} {repo : RepoData} (hr : repo ∈ repos)
    {n v : String} (h : (n, v) ∈ repo.devDependencies) :
    ∃ e, mapGet (processRepos repos).2 n = some e ∧
      selectList (declaredVersions RepoData.devDependencies n repos) = some e.version := by
  have hmem := declaredVersions_mem hr h
  have hchar := mapGet_processRepos_snd repos n
  cases hg : mapGet (processRepos repos).2 n with
  | none =>
    rw [hg] at hchar
    cases hd : declaredVersions RepoData.devDependencies n repos with
    | nil => rw [hd] at hmem; simp at hmem
    | cons a l => rw [hd] at hchar; simp [selectList] at hchar
  | some e =>
    rw [hg] at hchar
    exact ⟨e, rfl, by simpa using hchar.symm⟩

/-! ### The claims -/

set_option maxRecDepth 10000

/-- C1: for every input list, every dependency class and every package name,
every parseable declared specifier is dominated by the class selection: the
selected specifier (the merged normal mapping value, and for the development
class the selection entry before the exclusion step) is parseable and its
concrete version is greater than or equal to that of every parseable declared
specifier for the name; in scenario 1 the merged normal mapping holds
lodash at the caret specifier 4.17.21. -/
theorem merged_selection_max (repos : List RepoData) (name : String) :
    (∀ w, w ∈ declaredVersions RepoData.dependencies name repos →
      ∀ cw : Version, cleanVersion w = some cw →
        ∃ v cv, mapGet (mergeDependencies repos).mergedDependencies name = some v ∧
          cleanVersion v = some cv ∧ (cv = cw ∨ semverGt cv cw = true)) ∧
    (∀ w, w ∈ declaredVersions RepoData.devDependencies name repos →
      ∀ cw : Version, cleanVersion w = some cw →
        ∃ v cv, (mapGet (processRepos repos).2 name).map VersionEntry.version = some v ∧
          cleanVersion v = some cv ∧ (cv = cw ∨ semverGt cv cw = true)) ∧
    mapGet (mergeDependencies scenario1).mergedDependencies "lodash" = some "^4.17.21" := by
  refine ⟨?_, ?_, by decide⟩
  · intro w hw cw hcw
    obtain ⟨v, c, hsel, hcv, hge⟩ := selectList_ge hw hcw
    refine ⟨v, c, ?_, hcv, hge⟩
    rw [mergedDependencies_eq, mapGet_mergedOf, mapGet_processRepos_fst, hsel]
  · intro w hw cw hcw
    obtain ⟨v, c, hsel, hcv, hge⟩ := selectList_ge hw hcw
    refine ⟨v, c, ?_, hcv, hge⟩
    rw [mapGet_processRepos_snd, hsel]

/-- Witness for C1 at scenario 1, package lodash, declaration 4.17.0. -/
theorem merged_selection_max_witness :
    "^4.17.0" ∈ declaredVersions RepoData.dependencies "lodash" scenario1 ∧
    cleanVersion "^4.17.0" = some ⟨4, 17, 0⟩ ∧
    (∃ v cv, mapGet (mergeDependencies scenario1).mergedDependencies "lodash" = some v ∧
      cleanVersion v = some cv ∧ (cv = ⟨4, 17, 0⟩ ∨ semverGt cv ⟨4, 17, 0⟩ = true)) :=
  ⟨by decide, by decide,
    (merged_selection_max scenario1 "lodash").1 "^4.17.0" (by decide) ⟨4, 17, 0⟩ (by decide)⟩

/-- C2: selectHigherVersion follows the six-rule policy in order: both
unparseable keeps the first; one unparseable loses; otherwise the strictly
higher concrete version wins; equal concrete versions keep the first; and on
identical arguments the first is always selected and preferred. -/
theorem selectHigher_policy (a b : String) :
    (cleanVersion a = none → cleanVersion b = none →
      selectHigherVersion a b = ⟨a, true⟩) ∧
    (∀ nb, cleanVersion a = none → cleanVersion b = some nb →
      selectHigherVersion a b = ⟨b, false⟩) ∧
    (∀ na, cleanVersion a = some na → cleanVersion b = none →
      selectHigherVersion a b = ⟨a, true⟩) ∧
    (∀ na nb, cleanVersion a = some na → cleanVersion b = some nb →
      semverGt na nb = true → selectHigherVersion a b = ⟨a, true⟩) ∧
    (∀ na nb, cleanVersion a = some na → cleanVersion b = some nb →
      semverGt nb na = true → selectHigherVersion a b = ⟨b, false⟩) ∧
    (∀ na nb, cleanVersion a = some na → cleanVersion b = some nb →
      na = nb → selectHigherVersion a b = ⟨a, true⟩) ∧
    selectHigherVersion a a = ⟨a, true⟩ := by
  refine ⟨?_, ?_, ?_, ?_, ?_, ?_, ?_⟩
  · intro ha hb
    simp [selectHigherVersion, ha, hb]
  · intro nb ha hb
    simp [selectHigherVersion, ha, hb]
  · intro na ha hb
    simp [selectHigherVersion, ha, hb]
  · intro na nb ha hb hgt
    simp [selectHigherVersion, ha, hb, hgt]
  · intro na nb ha hb hgt
    have hopp := semverGt_asymm hgt
    simp [selectHigherVersion, ha, hb, hgt, hopp]
  · intro na nb ha hb heq
    subst heq
    simp [selectHigherVersion, ha, hb, semverGt_irrefl]
  · cases ha : cleanVersion a with
    | none => simp [selectHigherVersion, ha]
    | some ca => simp [selectHigherVersion, ha, semverGt_irrefl]

/-- Witness for C2: rule 2 at an unparseable first argument, and rule 5 at a
strictly lower first argument. -/
theorem selectHigher_policy_witness :
    cleanVersion "x" = none ∧ cleanVersion "^2.0.0" = some ⟨2, 0, 0⟩ ∧
    selectHigherVersion "x" "^2.0.0" = ⟨"^2.0.0", false⟩ ∧
    selectHigherVersion "^1.0.0" "^2.0.0" = ⟨"^2.0.0", false⟩ :=
  ⟨by decide, by decide,
    (selectHigher_policy "x" "^2.0.0").2.1 ⟨2, 0, 0⟩ (by decide) (by decide),
    (selectHigher_policy "^1.0.0" "^2.0.0").2.2.2.2.1 ⟨1, 0, 0⟩ ⟨2, 0, 0⟩
      (by decide) (by decide) (by decide)⟩

/-- C3: the claim that the merged normal and development mappings never share
a key is contradicted by the code at repoBug: the exclusion step tests the
looked-up specifier for truthiness rather than presence, so a normal
dependency selected at the empty-string specifier is not excluded and foo
appears in both merged mappings. -/
theorem merged_maps_share_key :
    mapGet (mergeDependencies [repoBug]).mergedDependencies "foo" = some "" ∧
    mapGet (mergeDependencies [repoBug]).mergedDevDependencies "foo" = some "1.0.0" := by
  constructor
  · decide
  · decide

/-- C5 counterexample: in scenario 2 the merge emits no outdated report at
all, so repository A is not flagged outdated, contrary to the claim. -/
theorem dev_fallback_counterexample :
    (mergeDependencies scenario5).outdatedReports = [] := by decide

/-- C5 amended: the merged normal mapping holds left-pad at the caret
specifier 1.1.0 and the merged development mapping omits it, but repository A
receives no outdated entry: the development selection entry for left-pad
still exists (at A's own caret specifier 1.0.0), so the comparison uses it
rather than falling back to the normal selection, and the literal-equality
guard suppresses the entry. -/
theorem dev_fallback_scenario :
    mapGet (mergeDependencies scenario5).mergedDependencies "left-pad" = some "^1.1.0" ∧
    mapGet (mergeDependencies scenario5).mergedDevDependencies "left-pad" = none ∧
    (mapGet (processRepos scenario5).2 "left-pad").map VersionEntry.version = some "^1.0.0" ∧
    getWithFallback (processRepos scenario5).2 (processRepos scenario5).1 "left-pad" =
      some ⟨"^1.0.0", [("repoA", "^1.0.0")]⟩ ∧
    (mergeDependencies scenario5).outdatedReports = [] := by
  refine ⟨by decide, by decide, by decide, by decide, by decide⟩

/-- C4: for every repository of the input, a declaration yields an outdated
entry exactly when a selection exists for the name (for the development
class: the development entry, else the normal one), both the declared and
the selected specifier are parseable, the declared concrete version is
strictly lower, and the two specifiers differ literally — stated as the
entry lists being precisely the declarations filtered by that condition. -/
theorem outdated_entry_iff (repos : List RepoData) (repo : RepoData) (h : repo ∈ repos) :
    outdatedDepsForRepo (processRepos repos).1 (processRepos repos).2 repo =
      repo.dependencies.filterMap
        (fun nv => specCheck (mapGet (processRepos repos).1 nv.1) nv.1 nv.2) ++
      repo.devDependencies.filterMap
        (fun nv => specCheck
          (getWithFallback (processRepos repos).2 (processRepos repos).1 nv.1) nv.1 nv.2) := by
  unfold outdatedDepsForRepo normalOutdated devOutdated
  simp only [checkEntry_eq_specCheck]

/-- Witness for C4 at scenario 1, repository A. -/
theorem outdated_entry_iff_witness :
    repoA1 ∈ scenario1 ∧
    outdatedDepsForRepo (processRepos scenario1).1 (processRepos scenario1).2 repoA1 =
      repoA1.dependencies.filterMap
        (fun nv => specCheck (mapGet (processRepos scenario1).1 nv.1) nv.1 nv.2) ++
      repoA1.devDependencies.filterMap
        (fun nv => specCheck
          (getWithFallback (processRepos scenario1).2 (processRepos scenario1).1 nv.1) nv.1 nv.2) :=
  ⟨by decide, outdated_entry_iff scenario1 repoA1 (by decide)⟩

/-- C6: the outdated reports are exactly one report per input repository with
a nonempty entry list, kept in input order; no emitted report is empty; and
within a repository the entries of each class form a sublist of that class's
declarations, preserving declaration order. -/
theorem outdatedReports_structure (repos : List RepoData) :
    (mergeDependencies repos).outdatedReports =
      (repos.map (fun r => OutdatedReport.mk r.path
        (outdatedDepsForRepo (processRepos repos).1 (processRepos repos).2 r))).filter
        (fun rep => !rep.outdatedDeps.isEmpty) ∧
    (∀ rep, rep ∈ (mergeDependencies repos).outdatedReports → rep.outdatedDeps ≠ []) ∧
    (∀ r : RepoData,
      List.Sublist ((normalOutdated (processRepos repos).1 r).map
        (fun e => (e.name, e.currentVersion))) r.dependencies ∧
      List.Sublist ((devOutdated (processRepos repos).1 (processRepos repos).2 r).map
        (fun e => (e.name, e.currentVersion))) r.devDependencies) := by
  refine ⟨?_, ?_, ?_⟩
  · rw [outdatedReports_eq, buildOutdatedReports_eq]
    rfl
  · intro rep hrep
    rw [outdatedReports_eq, buildOutdatedReports_eq] at hrep
    exact mem_outdatedReportsSpec_nonempty hrep
  · intro r
    exact ⟨outdated_name_sublist r.dependencies (fun n => mapGet (processRepos repos).1 n),
      outdated_name_sublist r.devDependencies
        (fun n => getWithFallback (processRepos repos).2 (processRepos repos).1 n)⟩

/-- Witness for C6 at scenario 1: repository A's report is emitted and is
nonempty. -/
theorem outdatedReports_structure_witness :
    (⟨"repoA", [⟨"lodash", "^4.17.0", "^4.17.21"⟩]⟩ : OutdatedReport) ∈
        (mergeDependencies scenario1).outdatedReports ∧
    (⟨"repoA", [⟨"lodash", "^4.17.0", "^4.17.21"⟩]⟩ : OutdatedReport).outdatedDeps ≠ [] :=
  ⟨by decide, (outdatedReports_structure scenario1).2.1 _ (by decide)⟩

/-- C7: the merge is total: with every fallible library comparison made
explicit, the merge succeeds on every input list — the unparseable guards
make every error branch unreachable — and the empty specifier normalizes to
the unparseable state rather than failing. -/
theorem mergeDependencies_total (repos : List RepoData) :
    mergeDependenciesE repos = Except.ok (mergeDependencies repos) ∧
    cleanVersion "" = none :=
  ⟨mergeDependenciesE_ok repos, by decide⟩

/-- C8: for parseable specifiers with the first strictly higher, the same
specifier is selected in both argument orders, while the preference flag
flips. -/
theorem selectHigher_order_independent {a b : String} {ca cb : Version}
    (ha : cleanVersion a = some ca) (hb : cleanVersion b = some cb)
    (hgt : semverGt ca cb = true) :
    selectHigherVersion a b = ⟨a, true⟩ ∧ selectHigherVersion b a = ⟨a, false⟩ := by
  have hopp := semverGt_asymm hgt
  constructor
  · simp [selectHigherVersion, ha, hb, hgt]
  · simp [selectHigherVersion, ha, hb, hgt, hopp]

/-- Witness for C8 at caret specifiers 2.0.0 and 1.0.0. -/
theorem selectHigher_order_independent_witness :
    cleanVersion "^2.0.0" = some ⟨2, 0, 0⟩ ∧ cleanVersion "^1.0.0" = some ⟨1, 0, 0⟩ ∧
    semverGt ⟨2, 0, 0⟩ ⟨1, 0, 0⟩ = true ∧
    (selectHigherVersion "^2.0.0" "^1.0.0" = ⟨"^2.0.0", true⟩ ∧
     selectHigherVersion "^1.0.0" "^2.0.0" = ⟨"^2.0.0", false⟩) :=
  ⟨by decide, by decide, by decide,
    @selectHigher_order_independent "^2.0.0" "^1.0.0" ⟨2, 0, 0⟩ ⟨1, 0, 0⟩
      (by decide) (by decide) (by decide)⟩

/-- C9: provenance — every specifier in the merged normal mapping, in the
merged development mapping, and every selectedVersion of an outdated entry is
character-for-character a specifier some input repository declared for that
package name in the corresponding dependency class; the merge never rewrites
a specifier. -/
theorem output_specifier_provenance (repos : List RepoData) (name v : String) :
    (mapGet (mergeDependencies repos).mergedDependencies name = some v →
      ∃ r, r ∈ repos ∧ (name, v) ∈ r.dependencies) ∧
    (mapGet (mergeDependencies repos).mergedDevDependencies name = some v →
      ∃ r, r ∈ repos ∧ (name, v) ∈ r.devDependencies) ∧
    (∀ repo, repo ∈ repos →
      (∀ e, e ∈ normalOutdated (processRepos repos).1 repo →
        ∃ r, r ∈ repos ∧ (e.name, e.selectedVersion) ∈ r.dependencies) ∧
      (∀ e, e ∈ devOutdated (processRepos repos).1 (processRepos repos).2 repo →
        ∃ r, r ∈ repos ∧ (e.name, e.selectedVersion) ∈ r.devDependencies)) := by
  refine ⟨?_, ?_, ?_⟩
  · intro h
    rw [mergedDependencies_eq, mapGet_mergedOf, mapGet_processRepos_fst] at h
    exact mem_declaredVersions (selectList_mem h)
  · intro h
    rw [mergedDevDependencies_eq, mergedDevOf_eq,
      @mapGet_filter_map_key VersionEntry String (processRepos repos).2
        (fun k => !jsTruthy (mapGet (mergedOf (processRepos repos).1) k))
        VersionEntry.version name] at h
    by_cases hq : (!jsTruthy (mapGet (mergedOf (processRepos repos).1) name)) = true
    · rw [if_pos hq] at h
      rw [mapGet_processRepos_snd] at h
      exact mem_declaredVersions (selectList_mem h)
    · rw [if_neg hq] at h
      exact absurd h (by simp)
  · intro repo hrepo
    constructor
    · intro e he
      obtain ⟨nv, hnv, hce⟩ := List.mem_filterMap.mp he
      obtain ⟨s, hs, hee, _⟩ := checkEntry_eq_some hce
      have hv : (mapGet (processRepos repos).1 nv.1).map VersionEntry.version =
          some s.version := by rw [hs]; rfl
      rw [mapGet_processRepos_fst] at hv
      have hmem := mem_declaredVersions (selectList_mem hv)
      rw [hee]
      exact hmem
    · intro e he
      obtain ⟨nv, hnv, hce⟩ := List.mem_filterMap.mp he
      obtain ⟨s, hs, hee, _⟩ := checkEntry_eq_some hce
      obtain ⟨e2, he2, hsel⟩ := devSelection_exists hrepo
        (show (nv.1, nv.2) ∈ repo.devDependencies by simpa using hnv)
      have hfall : getWithFallback (processRepos repos).2 (processRepos repos).1 nv.1 =
          some e2 := by
        unfold getWithFallback
        rw [he2]
      rw [hfall] at hs
      have hse : s = e2 := by simpa using hs.symm
      subst hse
      have hmem := mem_declaredVersions (selectList_mem hsel)
      rw [hee]
      exact hmem

/-- Witness for C9 at scenario 1: the merged lodash specifier is one that a
repository declared. -/
theorem output_specifier_provenance_witness :
    mapGet (mergeDependencies scenario1).mergedDependencies "lodash" = some "^4.17.21" ∧
    ∃ r, r ∈ scenario1 ∧ ("lodash", "^4.17.21") ∈ r.dependencies :=
  ⟨by decide, (output_specifier_provenance scenario1 "lodash" "^4.17.21").1 (by decide)⟩

/-- C10: a normal-class outdated entry's selectedVersion is exactly the
merged normal mapping's value for that name; a development-class entry's
selectedVersion is exactly the development-class selection, the fold of
selectHigherVersion over all development declarations of the name — and, as
scenario10 shows concretely, that selection may appear in neither merged
output mapping when the name is excluded from the development mapping. -/
theorem outdated_selectedVersion_source (repos : List RepoData) (repo : RepoData)
    (h : repo ∈ repos) :
    (∀ e, e ∈ normalOutdated (processRepos repos).1 repo →
      mapGet (mergeDependencies repos).mergedDependencies e.name = some e.selectedVersion) ∧
    (∀ e, e ∈ devOutdated (processRepos repos).1 (processRepos repos).2 repo →
      selectList (declaredVersions RepoData.devDependencies e.name repos) =
        some e.selectedVersion) ∧
    ((mergeDependencies scenario10).mergedDependencies = [("pkg", "^3.0.0")] ∧
     (mergeDependencies scenario10).mergedDevDependencies = [] ∧
     (mergeDependencies scenario10).outdatedReports =
       [⟨"rA", [⟨"pkg", "^1.0.0", "^2.0.0"⟩]⟩]) := by
  refine ⟨?_, ?_, by decide, by decide, by decide⟩
  · intro e he
    obtain ⟨nv, hnv, hce⟩ := List.mem_filterMap.mp he
    obtain ⟨s, hs, hee, _⟩ := checkEntry_eq_some hce
    rw [hee]
    rw [mergedDependencies_eq, mapGet_mergedOf, hs]
    rfl
  · intro e he
    obtain ⟨nv, hnv, hce⟩ := List.mem_filterMap.mp he
    obtain ⟨s, hs, hee, _⟩ := checkEntry_eq_some hce
    obtain ⟨e2, he2, hsel⟩ := devSelection_exists h
      (show (nv.1, nv.2) ∈ repo.devDependencies by simpa using hnv)
    have hfall : getWithFallback (processRepos repos).2 (processRepos repos).1 nv.1 =
        some e2 := by
      unfold getWithFallback
      rw [he2]
    rw [hfall] at hs
    have hse : s = e2 := by simpa using hs.symm
    subst hse
    rw [hee]
    exact hsel

/-- Witness for C10 at scenario10, repository rA: the development entry for
pkg carries the development-class selection, the caret specifier 2.0.0. -/
theorem outdated_selectedVersion_source_witness :
    repoA10 ∈ scenario10 ∧
    (⟨"pkg", "^1.0.0", "^2.0.0"⟩ : OutdatedDep) ∈
      devOutdated (processRepos scenario10).1 (processRepos scenario10).2 repoA10 ∧
    selectList (declaredVersions RepoData.devDependencies "pkg" scenario10) =
      some "^2.0.0" :=
  ⟨by decide, by decide,
    (outdated_selectedVersion_source scenario10 repoA10 (by decide)).2.1
      ⟨"pkg", "^1.0.0", "^2.0.0"⟩ (by decide)⟩
